import Mathlib

/-!
Singleton counter: `Creational-DP/Singleton/singleton/singleton.go`.

A shallow embedding of the Go package `singleton`:

* the package variable `instance *singleton` and the objects it can point to
  are an explicit memory (`Memory`): a list of allocated `singleton` structs,
  addressed by position, and the pointer held by the package variable;
* `GetInstance` and `AddOne` are functions on that memory;
* Go's `int` is a fixed-width two's-complement integer whose width (32 or 64
  bits) depends on the platform, so the increment `s.count++` wraps;
* a run-time panic (nil dereference) is the result `none`.
-/

namespace GoSingleton

/-! ## Go's `int` -/

/-- Width of Go's platform-dependent `int`: 32 or 64 bits. -/
inductive IntSize where
  | bits32
  | bits64
  deriving DecidableEq

/-- Number of bits of `int` on the platform. -/
def IntSize.bits : IntSize → Nat
  | .bits32 => 32
  | .bits64 => 64

/-- Largest value of `int` (`math.MaxInt`). -/
def maxInt (sz : IntSize) : Int := 2 ^ (sz.bits - 1) - 1

/-- Smallest value of `int` (`math.MinInt`). -/
def minInt (sz : IntSize) : Int := -(2 ^ (sz.bits - 1))

/-- Reduction of a mathematical integer to the two's-complement `int` it is stored as. -/
def wrapInt (sz : IntSize) (x : Int) : Int :=
  (x + 2 ^ (sz.bits - 1)) % 2 ^ sz.bits - 2 ^ (sz.bits - 1)

/-! ## Data model -/

/-- The struct `type singleton struct { count int }`. -/
structure singleton where
  count : Int
  deriving DecidableEq

/-- A value of the interface `Singleton`. Its only implementation is `*singleton`, so the value
is the pointer it holds: `none` is nil, `some a` is the address of an allocated struct. -/
abbrev Singleton := Option Nat

/-- Process-wide memory: the `singleton` structs allocated so far (the address of a struct is its
position in `heap`) and the package variable `var instance *singleton`. -/
structure Memory where
  heap : List singleton
  instanceVar : Option Nat
  deriving DecidableEq

/-- State of a process at start-up: nothing allocated, `instance` is nil. -/
def fresh : Memory := { heap := [], instanceVar := none }

/-- Every non-nil pointer held by the package variable addresses an allocated struct
(Go has no dangling pointers). -/
def Memory.WF (m : Memory) : Prop :=
  ∀ a, m.instanceVar = some a → a < m.heap.length

instance (m : Memory) : Decidable m.WF :=
  match h : m.instanceVar with
  | none => isTrue (fun a ha => by rw [h] at ha; cases ha)
  | some b =>
    if hb : b < m.heap.length then
      isTrue (fun a ha => by rw [h] at ha; cases ha; exact hb)
    else
      isFalse (fun hw => hb (hw b h))

/-- The value of `instance.count`, when `instance` points to a struct. -/
def Memory.count (m : Memory) : Option Int :=
  match m.instanceVar with
  | none => none
  | some a => (m.heap[a]?).map singleton.count

/-! ## Operations -/

/-- The function `GetInstance`:
```go
if instance == nil {
    instance = &singleton{count: 100}
}
return instance
```
The composite literal allocates a new struct at the next free address. The result is the returned
interface value together with the memory after the call. -/
def GetInstance (m : Memory) : Singleton × Memory :=
  let m1 : Memory :=
    if m.instanceVar = none then
      { heap := m.heap ++ [{ count := 100 }], instanceVar := some m.heap.length }
    else m
  (m1.instanceVar, m1)

/-- The method `(s *singleton) AddOne`:
```go
s.count++
return s.count
```
Dereferencing a nil receiver panics (`none`); otherwise the field is incremented with `int`
wrap-around and the new value is returned together with the memory after the call. -/
def AddOne (sz : IntSize) (s : Singleton) (m : Memory) : Option (Int × Memory) :=
  match s with
  | none => none
  | some a =>
    match m.heap[a]? with
    | none => none
    | some obj =>
      let m1 : Memory :=
        { heap := m.heap.set a { count := wrapInt sz (obj.count + 1) },
          instanceVar := m.instanceVar }
      match m1.heap[a]? with
      | none => none
      | some obj1 => some (obj1.count, m1)

/-! ## Client programs -/

/-- One call made by a client of the package: `GetInstance()`, whose result the client keeps, or
`AddOne()` on the `i`-th reference (counting from 0) it has obtained so far. -/
inductive Call where
  | getInstance
  | addOne (i : Nat)
  deriving DecidableEq

/-- A running client: the process memory, the references returned by its `GetInstance` calls in
the order obtained, and the values returned by its `AddOne` calls in the order returned. -/
structure Client where
  mem : Memory
  refs : List Singleton
  outs : List Int
  deriving DecidableEq

/-- A client that has made no call yet, on a given memory. -/
def Client.start (m : Memory) : Client := { mem := m, refs := [], outs := [] }

/-- Execution of one call. A reference the client never assigned is the zero value of the
interface type (nil), and a method call on it panics. -/
def step (sz : IntSize) (c : Client) : Call → Option Client
  | .getInstance =>
    let r := GetInstance c.mem
    some { mem := r.2, refs := c.refs ++ [r.1], outs := c.outs }
  | .addOne i =>
    match c.refs[i]? with
    | none => none
    | some s =>
      match AddOne sz s c.mem with
      | none => none
      | some r => some { mem := r.2, refs := c.refs, outs := c.outs ++ [r.1] }

/-- Execution of a sequence of calls; `none` when a call panics. -/
def run (sz : IntSize) (c : Client) : List Call → Option Client
  | [] => some c
  | x :: xs => (step sz c x).bind (fun c1 => run sz c1 xs)

/-- Memory states a process can be in: those some client program produces from `fresh`. -/
def Reachable (sz : IntSize) (m : Memory) : Prop :=
  ∃ cs c, run sz (Client.start fresh) cs = some c ∧ c.mem = m

/-! ## Auxiliary definitions used to state the properties -/

/-- Number of `GetInstance` calls in a program. -/
def numGet : List Call → Nat
  | [] => 0
  | .getInstance :: xs => numGet xs + 1
  | .addOne _ :: xs => numGet xs

/-- Number of `AddOne` calls in a program. -/
def numAddOne : List Call → Nat
  | [] => 0
  | .getInstance :: xs => numAddOne xs
  | .addOne _ :: xs => numAddOne xs + 1

/-- A program is well formed for a client holding `n` references when every `AddOne` call is made
on a reference the client has obtained by then. -/
def validFrom : Nat → List Call → Bool
  | _, [] => true
  | n, .getInstance :: xs => validFrom (n + 1) xs
  | n, .addOne i :: xs => decide (i < n) && validFrom n xs

/-- Closed form of a client that started on `fresh` and has made `g` calls to `GetInstance` and
`n` calls to `AddOne`. -/
def clientAfter (sz : IntSize) (g n : Nat) : Client :=
  { mem := if g = 0 then fresh
           else { heap := [{ count := wrapInt sz (100 + (n : Int)) }], instanceVar := some 0 },
    refs := List.replicate g (some 0),
    outs := (List.range n).map (fun (j : Nat) => wrapInt sz (100 + ((j : Int) + 1))) }

/-- The program `r := GetInstance()` followed by `n` calls `r.AddOne()`. -/
def countUp (n : Nat) : List Call :=
  Call.getInstance :: List.replicate n (Call.addOne 0)

/-- The memory after `k` successive calls to `GetInstance`. -/
def getInstanceTimes : Nat → Memory → Memory
  | 0, m => m
  | k + 1, m => getInstanceTimes k (GetInstance m).2

/-- Invariant of a client whose references all come from `GetInstance`: the memory is well formed
and every reference held is the non-nil pointer stored in the package variable. -/
def Client.Good (c : Client) : Prop :=
  c.mem.WF ∧ ∀ r ∈ c.refs, r = c.mem.instanceVar ∧ r ≠ none

/-- The scenario `r1 := GetInstance(); r2 := GetInstance(); n1 := r1.AddOne(); n2 := r2.AddOne()`:
the pair of values returned by the two `AddOne` calls, `none` when one of them panics. -/
def twoRefsAddOne (sz : IntSize) (m : Memory) : Option (Int × Int) :=
  let g1 := GetInstance m
  let g2 := GetInstance g1.2
  (AddOne sz g1.1 g2.2).bind (fun p1 =>
    (AddOne sz g2.1 p1.2).map (fun p2 => (p1.1, p2.1)))

end GoSingleton

namespace GoSingleton

/-! ## Arithmetic of `int` -/

theorem wrapInt_of_mem_range (sz : IntSize) (x : Int) (h1 : minInt sz ≤ x) (h2 : x ≤ maxInt sz) :
    wrapInt sz x = x := by
  cases sz <;> simp [wrapInt, maxInt, minInt, IntSize.bits] at * <;> omega

theorem wrapInt_range (sz : IntSize) (x : Int) :
    minInt sz ≤ wrapInt sz x ∧ wrapInt sz x ≤ maxInt sz := by
  cases sz <;> simp [wrapInt, maxInt, minInt, IntSize.bits] <;> omega

theorem wrapInt_wrapInt_add (sz : IntSize) (x y : Int) :
    wrapInt sz (wrapInt sz x + y) = wrapInt sz (x + y) := by
  cases sz <;> simp [wrapInt, IntSize.bits] <;> omega

theorem wrapInt_maxInt_succ (sz : IntSize) : wrapInt sz (maxInt sz + 1) = minInt sz := by
  cases sz <;> simp [wrapInt, maxInt, minInt, IntSize.bits]

theorem hundred_range (sz : IntSize) : minInt sz ≤ 100 ∧ 100 < maxInt sz := by
  cases sz <;> simp [maxInt, minInt, IntSize.bits]

/-! ## The two operations on an arbitrary memory -/

theorem GetInstance_of_nil (m : Memory) (h : m.instanceVar = none) :
    GetInstance m =
      (some m.heap.length,
        { heap := m.heap ++ [{ count := 100 }], instanceVar := some m.heap.length }) := by
  simp [GetInstance, h]

theorem GetInstance_of_some (m : Memory) (a : Nat) (h : m.instanceVar = some a) :
    GetInstance m = (some a, m) := by
  simp [GetInstance, h]

theorem AddOne_of_get (sz : IntSize) (m : Memory) (a : Nat) (obj : singleton)
    (h : m.heap[a]? = some obj) :
    AddOne sz (some a) m =
      some (wrapInt sz (obj.count + 1),
        { heap := m.heap.set a { count := wrapInt sz (obj.count + 1) },
          instanceVar := m.instanceVar }) := by
  have hlt : a < m.heap.length := by
    rcases Nat.lt_or_ge a m.heap.length with h1 | h1
    · exact h1
    · rw [List.getElem?_eq_none h1] at h; cases h
  simp [AddOne, h, List.getElem?_set_self, hlt]

theorem AddOne_eq_some (sz : IntSize) (s : Singleton) (m : Memory) (v : Int) (m1 : Memory)
    (h : AddOne sz s m = some (v, m1)) :
    ∃ a obj, s = some a ∧ m.heap[a]? = some obj ∧ v = wrapInt sz (obj.count + 1) ∧
      m1 = { heap := m.heap.set a { count := v }, instanceVar := m.instanceVar } := by
  cases s with
  | none => simp [AddOne] at h
  | some a =>
    cases hg : m.heap[a]? with
    | none => simp [AddOne, hg] at h
    | some obj =>
      rw [AddOne_of_get sz m a obj hg] at h
      simp only [Option.some.injEq, Prod.mk.injEq] at h
      refine ⟨a, obj, rfl, hg, h.1.symm, ?_⟩
      rw [← h.2, h.1]

/-! ## Programs started on the fresh memory -/

theorem clientAfter_zero (sz : IntSize) : clientAfter sz 0 0 = Client.start fresh := by
  simp [clientAfter, Client.start]

theorem step_getInstance_clientAfter (sz : IntSize) (g n : Nat) (h : g = 0 → n = 0) :
    step sz (clientAfter sz g n) Call.getInstance = some (clientAfter sz (g + 1) n) := by
  rcases Nat.eq_zero_or_pos g with hg | hg
  · subst hg
    have hn : n = 0 := h rfl
    subst hn
    have hw : wrapInt sz 100 = 100 :=
      wrapInt_of_mem_range sz 100 (hundred_range sz).1 (le_of_lt (hundred_range sz).2)
    simp [step, clientAfter, GetInstance, fresh, hw]
  · have hg0 : g ≠ 0 := Nat.pos_iff_ne_zero.mp hg
    have hrep : List.replicate g (some (0 : Nat)) ++ [some 0] = List.replicate (g + 1) (some 0) :=
      (List.replicate_add g 1 (some 0)).symm
    simp [step, clientAfter, GetInstance, hg0, hrep]

theorem step_addOne_clientAfter (sz : IntSize) (g n i : Nat) (hi : i < g) :
    step sz (clientAfter sz g n) (Call.addOne i) = some (clientAfter sz g (n + 1)) := by
  have hg0 : g ≠ 0 := by omega
  have hr : (clientAfter sz g n).refs[i]? = some (some 0) := by
    simp [clientAfter, List.getElem?_replicate, hi]
  have hm : (clientAfter sz g n).mem =
      { heap := [{ count := wrapInt sz (100 + (n : Int)) }], instanceVar := some 0 } := by
    simp [clientAfter, hg0]
  have ha := AddOne_of_get sz (clientAfter sz g n).mem 0
    { count := wrapInt sz (100 + (n : Int)) } (by rw [hm]; rfl)
  have hw : wrapInt sz (wrapInt sz (100 + (n : Int)) + 1) = wrapInt sz (100 + ((n : Int) + 1)) := by
    rw [wrapInt_wrapInt_add, add_assoc]
  simp only [step, hr, ha]
  simp [clientAfter, hg0, hw, List.range_succ]

theorem step_addOne_clientAfter_none (sz : IntSize) (g n i : Nat) (hi : ¬ i < g) :
    step sz (clientAfter sz g n) (Call.addOne i) = none := by
  have hr : (clientAfter sz g n).refs[i]? = none := by
    simp [clientAfter, List.getElem?_replicate, hi]
  simp [step, hr]

theorem run_clientAfter (sz : IntSize) (cs : List Call) :
    ∀ g n : Nat, (g = 0 → n = 0) → validFrom g cs = true →
      run sz (clientAfter sz g n) cs =
        some (clientAfter sz (g + numGet cs) (n + numAddOne cs)) := by
  induction cs with
  | nil => intro g n _ _; simp [run, numGet, numAddOne]
  | cons x xs ih =>
    intro g n h hv
    cases x with
    | getInstance =>
      simp only [validFrom] at hv
      rw [run, step_getInstance_clientAfter sz g n h, Option.some_bind,
        ih (g + 1) n (by omega) hv]
      simp only [numGet, numAddOne]
      congr 2
      omega
    | addOne i =>
      simp only [validFrom, Bool.and_eq_true, decide_eq_true_eq] at hv
      rw [run, step_addOne_clientAfter sz g n i hv.1, Option.some_bind,
        ih g (n + 1) (by omega) hv.2]
      simp only [numGet, numAddOne]
      congr 2
      omega

theorem run_clientAfter_valid (sz : IntSize) (cs : List Call) :
    ∀ (g n : Nat) (c : Client), (g = 0 → n = 0) → run sz (clientAfter sz g n) cs = some c →
      validFrom g cs = true := by
  induction cs with
  | nil => intro g n c _ _; rfl
  | cons x xs ih =>
    intro g n c h hr
    cases x with
    | getInstance =>
      rw [run, step_getInstance_clientAfter sz g n h, Option.some_bind] at hr
      simpa [validFrom] using ih (g + 1) n c (by omega) hr
    | addOne i =>
      by_cases hi : i < g
      · rw [run, step_addOne_clientAfter sz g n i hi, Option.some_bind] at hr
        simpa [validFrom, hi] using ih g (n + 1) c (by omega) hr
      · rw [run, step_addOne_clientAfter_none sz g n i hi] at hr
        cases hr

theorem run_fresh (sz : IntSize) (cs : List Call) (hv : validFrom 0 cs = true) :
    run sz (Client.start fresh) cs = some (clientAfter sz (numGet cs) (numAddOne cs)) := by
  have h := run_clientAfter sz cs 0 0 (fun _ => rfl) hv
  rw [clientAfter_zero] at h
  simpa using h

theorem run_fresh_valid (sz : IntSize) (cs : List Call) (c : Client)
    (h : run sz (Client.start fresh) cs = some c) : validFrom 0 cs = true := by
  rw [← clientAfter_zero sz] at h
  exact run_clientAfter_valid sz cs 0 0 c (fun _ => rfl) h

theorem run_fresh_eq (sz : IntSize) (cs : List Call) (c : Client)
    (h : run sz (Client.start fresh) cs = some c) :
    c = clientAfter sz (numGet cs) (numAddOne cs) := by
  have h2 := run_fresh sz cs (run_fresh_valid sz cs c h)
  rw [h] at h2
  exact Option.some.inj h2

theorem validFrom_pos_numGet (cs : List Call) :
    ∀ g : Nat, validFrom g cs = true → 0 < numAddOne cs → 0 < g + numGet cs := by
  induction cs with
  | nil => intro g _ h; simp [numAddOne] at h
  | cons x xs ih =>
    intro g hv h
    cases x with
    | getInstance => simp only [numGet]; omega
    | addOne i =>
      simp only [validFrom, Bool.and_eq_true, decide_eq_true_eq] at hv
      simp only [numGet]; omega

theorem validFrom_countUp (n : Nat) : validFrom 0 (countUp n) = true := by
  have h : ∀ k : Nat, validFrom 1 (List.replicate k (Call.addOne 0)) = true := by
    intro k
    induction k with
    | zero => rfl
    | succ k ih => simp [List.replicate_succ, validFrom, ih]
  simpa [countUp, validFrom] using h n

theorem numGet_countUp (n : Nat) : numGet (countUp n) = 1 := by
  have h : ∀ k : Nat, numGet (List.replicate k (Call.addOne 0)) = 0 := by
    intro k
    induction k with
    | zero => rfl
    | succ k ih => simp [List.replicate_succ, numGet, ih]
  simp [countUp, numGet, h n]

theorem numAddOne_countUp (n : Nat) : numAddOne (countUp n) = n := by
  have h : ∀ k : Nat, numAddOne (List.replicate k (Call.addOne 0)) = k := by
    intro k
    induction k with
    | zero => rfl
    | succ k ih => simp [List.replicate_succ, numAddOne, ih]
  simp [countUp, numAddOne, h n]

theorem run_countUp (sz : IntSize) (n : Nat) :
    run sz (Client.start fresh) (countUp n) = some (clientAfter sz 1 n) := by
  rw [run_fresh sz (countUp n) (validFrom_countUp n), numGet_countUp, numAddOne_countUp]

/-! ## Programs started on an arbitrary memory -/

theorem step_keeps_instance (sz : IntSize) (c c1 : Client) (x : Call) (a : Nat)
    (hs : step sz c x = some c1) (ha : c.mem.instanceVar = some a) :
    c1.mem.instanceVar = some a ∧ c1.mem.heap.length = c.mem.heap.length := by
  cases x with
  | getInstance =>
    simp only [step, GetInstance_of_some c.mem a ha, Option.some.injEq] at hs
    subst hs
    exact ⟨ha, rfl⟩
  | addOne i =>
    cases hr : c.refs[i]? with
    | none => simp [step, hr] at hs
    | some r =>
      cases hA : AddOne sz r c.mem with
      | none => simp [step, hr, hA] at hs
      | some p =>
        obtain ⟨v, m1⟩ := p
        simp only [step, hr, hA, Option.some.injEq] at hs
        subst hs
        obtain ⟨b, obj, _, _, _, hm⟩ := AddOne_eq_some sz r c.mem v m1 hA
        subst hm
        exact ⟨ha, by simp⟩

theorem run_keeps_instance (sz : IntSize) (cs : List Call) :
    ∀ (c c1 : Client) (a : Nat), run sz c cs = some c1 → c.mem.instanceVar = some a →
      c1.mem.instanceVar = some a ∧ c1.mem.heap.length = c.mem.heap.length := by
  induction cs with
  | nil =>
    intro c c1 a hr ha
    simp only [run, Option.some.injEq] at hr
    subst hr
    exact ⟨ha, rfl⟩
  | cons x xs ih =>
    intro c c1 a hr ha
    cases hs : step sz c x with
    | none => simp [run, hs] at hr
    | some c2 =>
      rw [run, hs, Option.some_bind] at hr
      have h2 := step_keeps_instance sz c c2 x a hs ha
      have h3 := ih c2 c1 a hr h2.1
      exact ⟨h3.1, h3.2.trans h2.2⟩

theorem good_start (m : Memory) (h : m.WF) : (Client.start m).Good := by
  refine ⟨h, ?_⟩
  intro r hr
  simp [Client.start] at hr

theorem step_getInstance_good (sz : IntSize) (c : Client) (h : c.Good) :
    ∃ c1, step sz c Call.getInstance = some c1 ∧ c1.Good ∧
      c1.refs.length = c.refs.length + 1 := by
  refine ⟨_, rfl, ?_, by simp⟩
  cases hi : c.mem.instanceVar with
  | none =>
    rw [GetInstance_of_nil c.mem hi]
    refine ⟨?_, ?_⟩
    · intro a ha
      simp only [Option.some.injEq] at ha
      subst ha
      simp
    · intro r hr
      simp only [List.mem_append, List.mem_singleton] at hr
      rcases hr with hr | hr
      · have := (h.2 r hr)
        rw [hi] at this
        exact absurd this.1 this.2
      · subst hr
        simp
  | some a =>
    rw [GetInstance_of_some c.mem a hi]
    refine ⟨h.1, ?_⟩
    intro r hr
    simp only [List.mem_append, List.mem_singleton] at hr
    rcases hr with hr | hr
    · exact h.2 r hr
    · subst hr
      simp [hi]

theorem step_addOne_good (sz : IntSize) (c : Client) (i : Nat) (h : c.Good)
    (hi : i < c.refs.length) :
    ∃ c1, step sz c (Call.addOne i) = some c1 ∧ c1.Good ∧ c1.refs.length = c.refs.length := by
  have hr : c.refs[i]? = some (c.refs[i]) := List.getElem?_eq_getElem hi
  have hmem : c.refs[i] ∈ c.refs := List.getElem_mem hi
  obtain ⟨he, hne⟩ := h.2 _ hmem
  cases hp : c.refs[i] with
  | none => exact absurd hp hne
  | some a =>
    have hinst : c.mem.instanceVar = some a := by rw [← he, hp]
    have hlt : a < c.mem.heap.length := h.1 a hinst
    have hg : c.mem.heap[a]? = some (c.mem.heap[a]) := List.getElem?_eq_getElem hlt
    have hA := AddOne_of_get sz c.mem a _ hg
    refine ⟨{ mem := { heap := c.mem.heap.set a { count := wrapInt sz (c.mem.heap[a].count + 1) },
                       instanceVar := c.mem.instanceVar },
              refs := c.refs,
              outs := c.outs ++ [wrapInt sz (c.mem.heap[a].count + 1)] },
      by simp only [step, hr, hp, hA], ?_, rfl⟩
    refine ⟨?_, ?_⟩
    · intro b hb
      simpa using h.1 b hb
    · intro r hr2
      exact h.2 r hr2

theorem run_good (sz : IntSize) (cs : List Call) :
    ∀ c : Client, c.Good → validFrom c.refs.length cs = true →
      ∃ c1, run sz c cs = some c1 ∧ c1.Good ∧ c1.refs.length = c.refs.length + numGet cs := by
  induction cs with
  | nil => intro c h _; exact ⟨c, rfl, h, rfl⟩
  | cons x xs ih =>
    intro c h hv
    cases x with
    | getInstance =>
      obtain ⟨c1, hs, hg, hl⟩ := step_getInstance_good sz c h
      simp only [validFrom] at hv
      rw [← hl] at hv
      obtain ⟨c2, hr, hg2, hl2⟩ := ih c1 hg hv
      refine ⟨c2, by rw [run, hs, Option.some_bind, hr], hg2, ?_⟩
      simp only [numGet]; omega
    | addOne i =>
      simp only [validFrom, Bool.and_eq_true, decide_eq_true_eq] at hv
      obtain ⟨c1, hs, hg, hl⟩ := step_addOne_good sz c i h hv.1
      rw [← hl] at hv
      obtain ⟨c2, hr, hg2, hl2⟩ := ih c1 hg hv.2
      refine ⟨c2, by rw [run, hs, Option.some_bind, hr], hg2, ?_⟩
      simp only [numGet]; omega

theorem step_refs (sz : IntSize) (c c1 : Client) (x : Call)
    (hj : ∀ r ∈ c.refs, r = c.mem.instanceVar ∧ r ≠ none) (hs : step sz c x = some c1) :
    (∀ r ∈ c1.refs, r = c1.mem.instanceVar ∧ r ≠ none) ∧
      c1.refs.length = c.refs.length + numGet [x] := by
  cases x with
  | getInstance =>
    simp only [step, Option.some.injEq] at hs
    subst hs
    refine ⟨?_, by simp [numGet]⟩
    cases hi : c.mem.instanceVar with
    | none =>
      rw [GetInstance_of_nil c.mem hi]
      intro r hr
      simp only [List.mem_append, List.mem_singleton] at hr
      rcases hr with hr | hr
      · have := hj r hr
        rw [hi] at this
        exact absurd this.1 this.2
      · subst hr
        simp
    | some a =>
      rw [GetInstance_of_some c.mem a hi]
      intro r hr
      simp only [List.mem_append, List.mem_singleton] at hr
      rcases hr with hr | hr
      · exact hj r hr
      · subst hr
        simp [hi]
  | addOne i =>
    cases hr : c.refs[i]? with
    | none => simp [step, hr] at hs
    | some r =>
      cases hA : AddOne sz r c.mem with
      | none => simp [step, hr, hA] at hs
      | some p =>
        obtain ⟨v, m1⟩ := p
        simp only [step, hr, hA, Option.some.injEq] at hs
        subst hs
        obtain ⟨b, obj, _, _, _, hm⟩ := AddOne_eq_some sz r c.mem v m1 hA
        subst hm
        exact ⟨hj, by simp [numGet]⟩

theorem run_refs (sz : IntSize) (cs : List Call) :
    ∀ c c1 : Client, (∀ r ∈ c.refs, r = c.mem.instanceVar ∧ r ≠ none) →
      run sz c cs = some c1 →
      (∀ r ∈ c1.refs, r = c1.mem.instanceVar ∧ r ≠ none) ∧
        c1.refs.length = c.refs.length + numGet cs := by
  induction cs with
  | nil =>
    intro c c1 hj hr
    simp only [run, Option.some.injEq] at hr
    subst hr
    exact ⟨hj, rfl⟩
  | cons x xs ih =>
    intro c c1 hj hr
    cases hs : step sz c x with
    | none => simp [run, hs] at hr
    | some c2 =>
      rw [run, hs, Option.some_bind] at hr
      have h2 := step_refs sz c c2 x hj hs
      have h3 := ih c2 c1 h2.1 hr
      refine ⟨h3.1, ?_⟩
      rw [h3.2, h2.2]
      cases x <;> simp only [numGet] <;> omega

theorem getInstanceTimes_of_some (k : Nat) :
    ∀ (m : Memory) (a : Nat), m.instanceVar = some a → getInstanceTimes k m = m := by
  induction k with
  | zero => intro m a _; rfl
  | succ k ih =>
    intro m a h
    rw [getInstanceTimes, GetInstance_of_some m a h]
    exact ih m a h

/-! ## Reachable memories -/

theorem clientAfter_outs_length (sz : IntSize) (g n : Nat) :
    (clientAfter sz g n).outs.length = n := by
  simp only [clientAfter, List.length_map, List.length_range]

theorem clientAfter_outs_get (sz : IntSize) (g n j : Nat) (hj : j < n) :
    (clientAfter sz g n).outs[j]? = some (wrapInt sz (100 + ((j : Int) + 1))) := by
  simp only [clientAfter, List.getElem?_map, List.getElem?_range hj, Option.map_some']

theorem clientAfter_mem_pos (sz : IntSize) (g n : Nat) (hg : 0 < g) :
    (clientAfter sz g n).mem =
      { heap := [{ count := wrapInt sz (100 + (n : Int)) }], instanceVar := some 0 } := by
  have hg0 : g ≠ 0 := by omega
  simp [clientAfter, hg0]

theorem reachable_countUp (sz : IntSize) (n : Nat) :
    Reachable sz { heap := [{ count := wrapInt sz (100 + (n : Int)) }], instanceVar := some 0 } :=
  ⟨countUp n, clientAfter sz 1 n, run_countUp sz n, clientAfter_mem_pos sz 1 n (by decide)⟩

theorem reachable_cases (sz : IntSize) (m : Memory) (h : Reachable sz m) :
    m = fresh ∨
      ∃ n : Nat, m = { heap := [{ count := wrapInt sz (100 + (n : Int)) }], instanceVar := some 0 } := by
  obtain ⟨cs, c, hr, hm⟩ := h
  have hc := run_fresh_eq sz cs c hr
  subst hc
  rcases Nat.eq_zero_or_pos (numGet cs) with hg | hg
  · left
    rw [← hm]
    simp [clientAfter, hg]
  · right
    exact ⟨numAddOne cs, by rw [← hm, clientAfter_mem_pos sz _ _ hg]⟩

theorem reachable_WF (sz : IntSize) (m : Memory) (h : Reachable sz m) : m.WF := by
  rcases reachable_cases sz m h with hm | ⟨n, hm⟩
  · subst hm
    intro a ha
    simp [fresh] at ha
  · subst hm
    intro a ha
    simp only [Option.some.injEq] at ha
    subst ha
    simp

/-! ## The properties -/

/-- C1 (as stated, refuted): on a 32-bit platform the program `countUp 2147483548` runs without
panic and its 2147483548-th call to AddOne returns -2147483648, not 100 + 2147483548; on a 64-bit
platform the 9223372036854775708-th call returns -9223372036854775808, not
100 + 9223372036854775708. -/
theorem kth_addOne_wraps :
    (∃ c, run IntSize.bits32 (Client.start fresh) (countUp 2147483548) = some c ∧
      c.outs[2147483548 - 1]? = some (-2147483648) ∧
      (-2147483648 : Int) ≠ 100 + 2147483548) ∧
    (∃ c, run IntSize.bits64 (Client.start fresh) (countUp 9223372036854775708) = some c ∧
      c.outs[9223372036854775708 - 1]? = some (-9223372036854775808) ∧
      (-9223372036854775808 : Int) ≠ 100 + 9223372036854775708) := by
  refine ⟨⟨_, run_countUp _ _, ?_, by decide⟩, ⟨_, run_countUp _ _, ?_, by decide⟩⟩
  · rw [clientAfter_outs_get _ _ _ _ (by decide)]
    simp [wrapInt, IntSize.bits]
  · rw [clientAfter_outs_get _ _ _ _ (by decide)]
    simp [wrapInt, IntSize.bits]

/-- C1 (amended): every well-formed program started on the fresh memory runs without panic, and
for every k from 1 to the number of its AddOne calls, the k-th AddOne call returns 100 + k
reduced to the range of int; it returns exactly 100 + k whenever 100 + k is at most the largest
int. In particular GetInstance().AddOne() on the fresh memory returns 101 and the next call
returns 102. -/
theorem kth_addOne_returns (sz : IntSize) (cs : List Call) (k : Nat)
    (hv : validFrom 0 cs = true) (hk1 : 1 ≤ k) (hk : k ≤ numAddOne cs) :
    (∃ c, run sz (Client.start fresh) cs = some c ∧ c.outs.length = numAddOne cs ∧
      c.outs[k - 1]? = some (wrapInt sz (100 + (k : Int))) ∧
      ((100 : Int) + k ≤ maxInt sz → c.outs[k - 1]? = some (100 + (k : Int)))) ∧
    (run sz (Client.start fresh) [Call.getInstance, Call.addOne 0, Call.addOne 0]).map Client.outs
      = some [101, 102] := by
  have hget : (clientAfter sz (numGet cs) (numAddOne cs)).outs[k - 1]? =
      some (wrapInt sz (100 + (k : Int))) := by
    rw [clientAfter_outs_get sz _ _ (k - 1) (by omega)]
    congr 2
    omega
  refine ⟨⟨_, run_fresh sz cs hv, clientAfter_outs_length sz _ _, hget, ?_⟩, ?_⟩
  · intro hb
    rw [hget, wrapInt_of_mem_range sz _ (by have := (hundred_range sz).1; omega) hb]
  · have h1 : wrapInt sz 101 = 101 := by cases sz <;> simp [wrapInt, IntSize.bits]
    have h2 : wrapInt sz 102 = 102 := by cases sz <;> simp [wrapInt, IntSize.bits]
    rw [run_fresh sz _ (by decide)]
    simp [clientAfter, numAddOne, List.range_succ, h1, h2]

/-- Witness of C1 (amended): the program GetInstance, AddOne, AddOne on a 64-bit platform, k = 2. -/
theorem kth_addOne_returns_witness :
    validFrom 0 (countUp 2) = true ∧ 1 ≤ 2 ∧ 2 ≤ numAddOne (countUp 2) ∧
    (100 : Int) + (2 : Nat) ≤ maxInt IntSize.bits64 ∧
    ∃ c, run IntSize.bits64 (Client.start fresh) (countUp 2) = some c ∧ c.outs[1]? = some 102 := by
  obtain ⟨⟨c, h1, _, _, h4⟩, _⟩ :=
    kth_addOne_returns IntSize.bits64 (countUp 2) 2 (by decide) (by decide) (by decide)
  exact ⟨by decide, by decide, by decide, by decide, c, h1, h4 (by decide)⟩

/-- C2: from any starting memory and for any program (any number of GetInstance calls, with any
AddOne calls interleaved) that runs to its end, the client has obtained one reference per
GetInstance call, and every reference obtained is non-nil and equal to the first one obtained.
From a well-formed starting memory every well-formed program does run to its end. -/
theorem getInstance_same_reference (sz : IntSize) (m : Memory) (cs : List Call) :
    (∀ c, run sz (Client.start m) cs = some c →
      c.refs.length = numGet cs ∧ ∀ r ∈ c.refs, r ≠ none ∧ c.refs.head? = some r) ∧
    (m.WF → validFrom 0 cs = true → ∃ c, run sz (Client.start m) cs = some c) := by
  refine ⟨?_, ?_⟩
  · intro c hr
    have hj0 : ∀ r ∈ (Client.start m).refs,
        r = (Client.start m).mem.instanceVar ∧ r ≠ none := by
      intro r hmem
      simp [Client.start] at hmem
    obtain ⟨hj, hl⟩ := run_refs sz cs (Client.start m) c hj0 hr
    refine ⟨by simpa [Client.start] using hl, ?_⟩
    intro r hmem
    refine ⟨(hj r hmem).2, ?_⟩
    cases hrefs : c.refs with
    | nil => rw [hrefs] at hmem; cases hmem
    | cons r0 rs =>
      have h0 : r0 ∈ c.refs := by rw [hrefs]; exact List.mem_cons_self r0 rs
      simp only [List.head?_cons, Option.some.injEq]
      rw [(hj r0 h0).1, (hj r hmem).1]
  · intro hwf hv
    obtain ⟨c, hr, _, _⟩ := run_good sz cs (Client.start m) (good_start m hwf) hv
    exact ⟨c, hr⟩

/-- Witness of C2: three GetInstance calls with AddOne calls interleaved, started on a memory
whose Counter already exists with count 7. -/
theorem getInstance_same_reference_witness :
    run IntSize.bits64 (Client.start { heap := [{ count := 7 }], instanceVar := some 0 })
        [Call.getInstance, Call.addOne 0, Call.getInstance, Call.getInstance, Call.addOne 2]
      = some { mem := { heap := [{ count := 9 }], instanceVar := some 0 },
               refs := [some 0, some 0, some 0], outs := [8, 9] } ∧
    ∀ r ∈ [some 0, some 0, some (0 : Nat)],
      r ≠ none ∧ [some 0, some 0, some (0 : Nat)].head? = some r := by
  have h : run IntSize.bits64
      (Client.start { heap := [{ count := 7 }], instanceVar := some 0 })
      [Call.getInstance, Call.addOne 0, Call.getInstance, Call.getInstance, Call.addOne 2]
      = some { mem := { heap := [{ count := 9 }], instanceVar := some 0 },
               refs := [some 0, some 0, some 0], outs := [8, 9] } := by decide
  exact ⟨h, ((getInstance_same_reference IntSize.bits64 _ _).1 _ h).2⟩

theorem getInstance_WF (m : Memory) (h : m.WF) :
    ∃ a obj, GetInstance (GetInstance m).2 = (some a, (GetInstance m).2) ∧
      (GetInstance m).1 = some a ∧ (GetInstance m).2.instanceVar = some a ∧
      (GetInstance m).2.heap[a]? = some obj ∧ (GetInstance m).2.count = some obj.count ∧
      (m.instanceVar ≠ none → (GetInstance m).2 = m) := by
  cases hi : m.instanceVar with
  | none =>
    rw [GetInstance_of_nil m hi]
    refine ⟨m.heap.length, { count := 100 }, ?_, rfl, rfl, by simp, by simp [Memory.count], ?_⟩
    · exact GetInstance_of_some _ _ rfl
    · intro hne; exact absurd rfl hne
  | some a =>
    have hlt : a < m.heap.length := h a hi
    rw [GetInstance_of_some m a hi]
    refine ⟨a, m.heap[a], GetInstance_of_some m a hi, rfl, hi, List.getElem?_eq_getElem hlt, ?_,
      fun _ => rfl⟩
    simp [Memory.count, hi, List.getElem?_eq_getElem hlt]

theorem twoRefsAddOne_of_WF (sz : IntSize) (m : Memory) (h : m.WF) :
    ∃ n : Int, twoRefsAddOne sz m = some (n, wrapInt sz (n + 1)) ∧
      minInt sz ≤ n ∧ n ≤ maxInt sz := by
  obtain ⟨a, obj, h2, h1, _, hget, _, _⟩ := getInstance_WF m h
  have hA := AddOne_of_get sz (GetInstance m).2 a obj hget
  have hlt : a < (GetInstance m).2.heap.length := by
    rcases Nat.lt_or_ge a (GetInstance m).2.heap.length with h3 | h3
    · exact h3
    · rw [List.getElem?_eq_none h3] at hget; cases hget
  have hB := AddOne_of_get sz
    { heap := (GetInstance m).2.heap.set a { count := wrapInt sz (obj.count + 1) },
      instanceVar := (GetInstance m).2.instanceVar } a
    { count := wrapInt sz (obj.count + 1) } (by simp [List.getElem?_set_self, hlt])
  refine ⟨wrapInt sz (obj.count + 1), ?_, (wrapInt_range sz _).1, (wrapInt_range sz _).2⟩
  simp only [twoRefsAddOne, h2, h1, hA, Option.some_bind, hB, Option.map_some']

/-- C3 (as stated, refuted): on a 64-bit platform the memory whose Counter has count
9223372036854775806 is reachable, and there the first AddOne (through r1) returns
n = 9223372036854775807 and the following AddOne (through r2) returns -9223372036854775808,
which is not n + 1; likewise on a 32-bit platform at count 2147483646. -/
theorem shared_addOne_wraps :
    (Reachable IntSize.bits64 { heap := [{ count := 9223372036854775806 }], instanceVar := some 0 } ∧
      twoRefsAddOne IntSize.bits64
          { heap := [{ count := 9223372036854775806 }], instanceVar := some 0 }
        = some (9223372036854775807, -9223372036854775808) ∧
      (-9223372036854775808 : Int) ≠ 9223372036854775807 + 1) ∧
    (Reachable IntSize.bits32 { heap := [{ count := 2147483646 }], instanceVar := some 0 } ∧
      twoRefsAddOne IntSize.bits32 { heap := [{ count := 2147483646 }], instanceVar := some 0 }
        = some (2147483647, -2147483648) ∧
      (-2147483648 : Int) ≠ 2147483647 + 1) := by
  refine ⟨⟨?_, by decide, by decide⟩, ⟨?_, by decide, by decide⟩⟩
  · have h := reachable_countUp IntSize.bits64 9223372036854775706
    have hw : wrapInt IntSize.bits64 (100 + ((9223372036854775706 : Nat) : Int))
        = 9223372036854775806 := by simp [wrapInt, IntSize.bits]
    rw [hw] at h
    exact h
  · have h := reachable_countUp IntSize.bits32 2147483546
    have hw : wrapInt IntSize.bits32 (100 + ((2147483546 : Nat) : Int)) = 2147483646 := by
      simp [wrapInt, IntSize.bits]
    rw [hw] at h
    exact h

/-- C3 (amended): in every reachable memory, if r1 and r2 are obtained by two separate
GetInstance calls, neither AddOne call panics, and if r1.AddOne() returns n then the following
r2.AddOne() returns n + 1 reduced to the range of int, which is exactly n + 1 whenever n is below
the largest int. From the fresh memory, three AddOne calls made through three separately
obtained references return 101, 102, 103 in that order. -/
theorem shared_addOne_returns (sz : IntSize) (m : Memory) (h : Reachable sz m) :
    (∃ n n2 : Int, twoRefsAddOne sz m = some (n, n2) ∧ n2 = wrapInt sz (n + 1) ∧
      (n < maxInt sz → n2 = n + 1)) ∧
    (run sz (Client.start fresh)
        [Call.getInstance, Call.addOne 0, Call.getInstance, Call.addOne 1,
          Call.getInstance, Call.addOne 2]).map Client.outs = some [101, 102, 103] ∧
    (run sz (Client.start fresh)
        [Call.getInstance, Call.getInstance, Call.getInstance,
          Call.addOne 0, Call.addOne 1, Call.addOne 2]).map Client.outs = some [101, 102, 103] := by
  have h1 : wrapInt sz 101 = 101 := by cases sz <;> simp [wrapInt, IntSize.bits]
  have h2 : wrapInt sz 102 = 102 := by cases sz <;> simp [wrapInt, IntSize.bits]
  have h3 : wrapInt sz 103 = 103 := by cases sz <;> simp [wrapInt, IntSize.bits]
  obtain ⟨n, hn, hlo, _⟩ := twoRefsAddOne_of_WF sz m (reachable_WF sz m h)
  refine ⟨⟨n, wrapInt sz (n + 1), hn, rfl, ?_⟩, ?_, ?_⟩
  · intro hlt
    exact wrapInt_of_mem_range sz _ (by omega) (by omega)
  · rw [run_fresh sz _ (by decide)]
    simp [clientAfter, numAddOne, List.range_succ, h1, h2, h3]
  · rw [run_fresh sz _ (by decide)]
    simp [clientAfter, numAddOne, List.range_succ, h1, h2, h3]

/-- Witness of C3 (amended): the fresh memory on a 64-bit platform. -/
theorem shared_addOne_returns_witness :
    Reachable IntSize.bits64 fresh ∧
      ∃ n n2 : Int, twoRefsAddOne IntSize.bits64 fresh = some (n, n2) ∧
        n2 = wrapInt IntSize.bits64 (n + 1) ∧ (n < maxInt IntSize.bits64 → n2 = n + 1) :=
  ⟨⟨[], Client.start fresh, rfl, rfl⟩,
    (shared_addOne_returns IntSize.bits64 fresh ⟨[], Client.start fresh, rfl, rfl⟩).1⟩

/-- C4: GetInstance initializes lazily. Called on a memory whose package variable is nil, it
allocates one Counter with count exactly 100 (the structs already allocated are untouched), stores
its address in the package variable and returns that address. Called on a memory whose package
variable holds a Counter, it leaves the whole memory unchanged and returns the stored address. -/
theorem getInstance_lazy_init :
    (∀ m : Memory, m.instanceVar = none →
      (GetInstance m).2.heap = m.heap ++ [{ count := 100 }] ∧
      (GetInstance m).2.instanceVar = some m.heap.length ∧
      (GetInstance m).2.count = some 100 ∧
      (GetInstance m).1 = (GetInstance m).2.instanceVar) ∧
    (∀ (m : Memory) (a : Nat), m.instanceVar = some a →
      (GetInstance m).2 = m ∧ (GetInstance m).1 = some a) := by
  refine ⟨?_, ?_⟩
  · intro m h
    rw [GetInstance_of_nil m h]
    exact ⟨rfl, rfl, by simp [Memory.count], rfl⟩
  · intro m a h
    rw [GetInstance_of_some m a h]
    exact ⟨rfl, rfl⟩

/-- Witness of C4: the fresh memory, and the memory holding one Counter with count 105. -/
theorem getInstance_lazy_init_witness :
    (fresh.instanceVar = none ∧ (GetInstance fresh).2.heap = [{ count := 100 }] ∧
      (GetInstance fresh).2.count = some 100 ∧ (GetInstance fresh).1 = some 0) ∧
    ((GetInstance { heap := [{ count := 105 }], instanceVar := some 0 }).2
        = { heap := [{ count := 105 }], instanceVar := some 0 } ∧
      (GetInstance { heap := [{ count := 105 }], instanceVar := some 0 }).1 = some 0) := by
  have h1 := getInstance_lazy_init.1 fresh rfl
  have h2 := getInstance_lazy_init.2 { heap := [{ count := 105 }], instanceVar := some 0 } 0 rfl
  exact ⟨⟨rfl, h1.1, h1.2.2.1, h1.2.2.2.trans h1.2.1⟩, h2⟩

/-- C5: on every memory in which the Counter exists, GetInstance leaves the whole memory (and so
count) unchanged, and so does any number k of GetInstance calls; the value and the memory that an
AddOne call produces are the same with and without k extra GetInstance calls before it, on any
reference and in particular on the reference GetInstance returns. On any memory at all, k + 1
GetInstance calls leave the same memory as one. -/
theorem getInstance_idempotent (sz : IntSize) (m : Memory) (k : Nat)
    (h : m.instanceVar ≠ none) :
    (GetInstance m).2 = m ∧ (GetInstance m).2.count = m.count ∧
    getInstanceTimes k m = m ∧
    (∀ s : Singleton, AddOne sz s (getInstanceTimes k m) = AddOne sz s m) ∧
    AddOne sz (GetInstance (getInstanceTimes k m)).1 (GetInstance (getInstanceTimes k m)).2
      = AddOne sz (GetInstance m).1 (GetInstance m).2 ∧
    (∀ m0 : Memory, getInstanceTimes (k + 1) m0 = (GetInstance m0).2) := by
  cases hi : m.instanceVar with
  | none => exact absurd hi h
  | some a =>
    have hk := getInstanceTimes_of_some k m a hi
    have hg := GetInstance_of_some m a hi
    refine ⟨by rw [hg], by rw [hg], hk, ?_, by rw [hk], ?_⟩
    · intro s; rw [hk]
    · intro m0
      cases h0 : m0.instanceVar with
      | none =>
        rw [getInstanceTimes]
        exact getInstanceTimes_of_some k _ m0.heap.length (by rw [GetInstance_of_nil m0 h0])
      | some b =>
        rw [getInstanceTimes]
        exact getInstanceTimes_of_some k _ b (by rw [GetInstance_of_some m0 b h0]; exact h0)

/-- Witness of C5: the memory holding one Counter with count 105, five extra GetInstance calls. -/
theorem getInstance_idempotent_witness :
    ({ heap := [{ count := 105 }], instanceVar := some 0 } : Memory).instanceVar ≠ none ∧
    getInstanceTimes 5 { heap := [{ count := 105 }], instanceVar := some 0 }
      = { heap := [{ count := 105 }], instanceVar := some 0 } ∧
    AddOne IntSize.bits64 (some 0)
        (getInstanceTimes 5 { heap := [{ count := 105 }], instanceVar := some 0 })
      = AddOne IntSize.bits64 (some 0) { heap := [{ count := 105 }], instanceVar := some 0 } := by
  have h := getInstance_idempotent IntSize.bits64
    { heap := [{ count := 105 }], instanceVar := some 0 } 5 (by decide)
  exact ⟨by decide, h.2.2.1, h.2.2.2.1 (some 0)⟩

/-- C6 (as stated, refuted): on a 64-bit platform the memory whose Counter has count
c = 9223372036854775807 is reachable, and there AddOne leaves count equal to
-9223372036854775808 and returns -9223372036854775808, which is not c + 1; likewise on a 32-bit
platform at c = 2147483647. -/
theorem addOne_wraps_at_maxInt :
    (Reachable IntSize.bits64 { heap := [{ count := 9223372036854775807 }], instanceVar := some 0 } ∧
      AddOne IntSize.bits64 (some 0)
          { heap := [{ count := 9223372036854775807 }], instanceVar := some 0 }
        = some (-9223372036854775808,
            { heap := [{ count := -9223372036854775808 }], instanceVar := some 0 }) ∧
      (-9223372036854775808 : Int) ≠ 9223372036854775807 + 1) ∧
    (Reachable IntSize.bits32 { heap := [{ count := 2147483647 }], instanceVar := some 0 } ∧
      AddOne IntSize.bits32 (some 0) { heap := [{ count := 2147483647 }], instanceVar := some 0 }
        = some (-2147483648, { heap := [{ count := -2147483648 }], instanceVar := some 0 }) ∧
      (-2147483648 : Int) ≠ 2147483647 + 1) := by
  refine ⟨⟨?_, by decide, by decide⟩, ⟨?_, by decide, by decide⟩⟩
  · have h := reachable_countUp IntSize.bits64 9223372036854775707
    have hw : wrapInt IntSize.bits64 (100 + ((9223372036854775707 : Nat) : Int))
        = 9223372036854775807 := by simp [wrapInt, IntSize.bits]
    rw [hw] at h
    exact h
  · have h := reachable_countUp IntSize.bits32 2147483547
    have hw : wrapInt IntSize.bits32 (100 + ((2147483547 : Nat) : Int)) = 2147483647 := by
      simp [wrapInt, IntSize.bits]
    rw [hw] at h
    exact h

/-- C6 (amended): for every memory and every Counter in it with count = c, AddOne on that Counter
does not panic, returns the value that count has afterwards, changes neither the package variable
nor the number of allocated structs, and that value is c + 1 reduced to the range of int: exactly
c + 1 when c is an int below the largest int, and the smallest int when c is the largest int. -/
theorem addOne_increments (sz : IntSize) (m : Memory) (a : Nat) (c : Int)
    (h : m.heap[a]? = some { count := c }) :
    ∃ (v : Int) (m1 : Memory), AddOne sz (some a) m = some (v, m1) ∧
      m1.heap[a]? = some { count := v } ∧
      m1.instanceVar = m.instanceVar ∧ m1.heap.length = m.heap.length ∧
      v = wrapInt sz (c + 1) ∧
      (minInt sz ≤ c → c < maxInt sz → v = c + 1) ∧
      (c = maxInt sz → v = minInt sz) := by
  have hlt : a < m.heap.length := by
    rcases Nat.lt_or_ge a m.heap.length with h3 | h3
    · exact h3
    · rw [List.getElem?_eq_none h3] at h; cases h
  refine ⟨_, _, AddOne_of_get sz m a _ h, by simp [List.getElem?_set_self, hlt], rfl, by simp,
    rfl, ?_, ?_⟩
  · intro h1 h2
    show wrapInt sz (c + 1) = c + 1
    exact wrapInt_of_mem_range sz _ (by omega) (by omega)
  · intro hc
    show wrapInt sz (c + 1) = minInt sz
    rw [hc]
    exact wrapInt_maxInt_succ sz

/-- Witness of C6 (amended): a Counter with count 100 on a 64-bit platform. -/
theorem addOne_increments_witness :
    ({ heap := [{ count := 100 }], instanceVar := some 0 } : Memory).heap[0]?
        = some { count := 100 } ∧
      ∃ m1 : Memory,
        AddOne IntSize.bits64 (some 0) { heap := [{ count := 100 }], instanceVar := some 0 }
          = some (101, m1) ∧ m1.heap[0]? = some { count := 101 } := by
  obtain ⟨v, m1, h1, h2, _, _, _, h6, _⟩ := addOne_increments IntSize.bits64
    { heap := [{ count := 100 }], instanceVar := some 0 } 0 100 rfl
  have hv : v = 101 := by
    have := h6 (by decide) (by decide)
    omega
  subst hv
  exact ⟨rfl, m1, h1, h2⟩

/-- C7 (as stated, refuted): on a 64-bit platform the memory whose Counter has count
9223372036854775807 is reachable from the fresh memory, and AddOne on the reference returned by
GetInstance leaves count equal to -9223372036854775808, which is below the count before the call;
likewise on a 32-bit platform at count 2147483647. -/
theorem count_decreases_at_maxInt :
    (Reachable IntSize.bits64 { heap := [{ count := 9223372036854775807 }], instanceVar := some 0 } ∧
      ({ heap := [{ count := 9223372036854775807 }], instanceVar := some 0 } : Memory).count
        = some 9223372036854775807 ∧
      (AddOne IntSize.bits64
          (GetInstance { heap := [{ count := 9223372036854775807 }], instanceVar := some 0 }).1
          (GetInstance { heap := [{ count := 9223372036854775807 }], instanceVar := some 0 }).2).map
        (fun p => p.2.count) = some (some (-9223372036854775808)) ∧
      ¬ ((9223372036854775807 : Int) ≤ -9223372036854775808)) ∧
    (Reachable IntSize.bits32 { heap := [{ count := 2147483647 }], instanceVar := some 0 } ∧
      ({ heap := [{ count := 2147483647 }], instanceVar := some 0 } : Memory).count
        = some 2147483647 ∧
      (AddOne IntSize.bits32
          (GetInstance { heap := [{ count := 2147483647 }], instanceVar := some 0 }).1
          (GetInstance { heap := [{ count := 2147483647 }], instanceVar := some 0 }).2).map
        (fun p => p.2.count) = some (some (-2147483648)) ∧
      ¬ ((2147483647 : Int) ≤ -2147483648)) := by
  refine ⟨⟨?_, by decide, by decide, by decide⟩, ⟨?_, by decide, by decide, by decide⟩⟩
  · have h := reachable_countUp IntSize.bits64 9223372036854775707
    have hw : wrapInt IntSize.bits64 (100 + ((9223372036854775707 : Nat) : Int))
        = 9223372036854775807 := by simp [wrapInt, IntSize.bits]
    rw [hw] at h
    exact h
  · have h := reachable_countUp IntSize.bits32 2147483547
    have hw : wrapInt IntSize.bits32 (100 + ((2147483547 : Nat) : Int)) = 2147483647 := by
      simp [wrapInt, IntSize.bits]
    rw [hw] at h
    exact h

/-- C7 (amended): in every memory reachable from the fresh memory in which count = n, n is within
the range of int, GetInstance leaves count equal to n, and AddOne on the reference returned by
GetInstance does not panic and leaves count equal to n + 1 reduced to the range of int; whenever
n is below the largest int, that is exactly n + 1, which is at least n. -/
theorem count_monotone_below_maxInt (sz : IntSize) (m : Memory) (n : Int)
    (hr : Reachable sz m) (hc : m.count = some n) :
    minInt sz ≤ n ∧ n ≤ maxInt sz ∧
    (GetInstance m).2.count = some n ∧
    ∃ (v : Int) (m1 : Memory) (n1 : Int),
      AddOne sz (GetInstance m).1 (GetInstance m).2 = some (v, m1) ∧
      m1.count = some n1 ∧ n1 = wrapInt sz (n + 1) ∧
      (n < maxInt sz → n1 = n + 1 ∧ n ≤ n1) := by
  rcases reachable_cases sz m hr with hm | ⟨k, hm⟩
  · subst hm
    simp [Memory.count, fresh] at hc
  · subst hm
    simp only [Memory.count, List.getElem?_cons_zero, Option.map_some', Option.some.injEq] at hc
    have hrange := wrapInt_range sz (100 + (k : Int))
    rw [hc] at hrange
    rw [hc, GetInstance_of_some _ 0 rfl]
    refine ⟨hrange.1, hrange.2, by simp [Memory.count], ?_⟩
    refine ⟨_, _, wrapInt sz (n + 1), AddOne_of_get sz _ 0 { count := n } rfl,
      by simp [Memory.count], rfl, ?_⟩
    intro hlt
    have hw : wrapInt sz (n + 1) = n + 1 :=
      wrapInt_of_mem_range sz _ (by omega) (by omega)
    rw [hw]
    exact ⟨rfl, by omega⟩

/-- Witness of C7 (amended): the memory reached by GetInstance followed by one AddOne, count 101,
on a 64-bit platform. -/
theorem count_monotone_below_maxInt_witness :
    Reachable IntSize.bits64 { heap := [{ count := 101 }], instanceVar := some 0 } ∧
    ({ heap := [{ count := 101 }], instanceVar := some 0 } : Memory).count = some 101 ∧
    (GetInstance { heap := [{ count := 101 }], instanceVar := some 0 }).2.count = some 101 := by
  have hr : Reachable IntSize.bits64 { heap := [{ count := 101 }], instanceVar := some 0 } :=
    ⟨[Call.getInstance, Call.addOne 0],
      { mem := { heap := [{ count := 101 }], instanceVar := some 0 }, refs := [some 0],
        outs := [101] }, by decide, rfl⟩
  exact ⟨hr, rfl,
    (count_monotone_below_maxInt IntSize.bits64
      { heap := [{ count := 101 }], instanceVar := some 0 } 101 hr rfl).2.2.1⟩

/-- C8: every well-formed program started on the fresh memory runs without panic and allocates
at most one Counter: none when it makes no GetInstance call, exactly one otherwise. After the
program the package variable is nil, and a further GetInstance call would allocate, exactly when
the program made no GetInstance call, so only the first GetInstance call takes the creation
branch. From any client state whose package variable holds a Counter, no program changes the
package variable or allocates. -/
theorem at_most_one_counter (sz : IntSize) (cs : List Call) (hv : validFrom 0 cs = true) :
    ∃ c, run sz (Client.start fresh) cs = some c ∧
      c.mem.heap.length = (if numGet cs = 0 then 0 else 1) ∧
      (c.mem.instanceVar = none ↔ numGet cs = 0) ∧
      ((GetInstance c.mem).2.heap.length = c.mem.heap.length + 1 ↔ numGet cs = 0) ∧
      (∀ (c0 c2 : Client) (cs2 : List Call) (a : Nat),
        c0.mem.instanceVar = some a → run sz c0 cs2 = some c2 →
          c2.mem.instanceVar = some a ∧ c2.mem.heap.length = c0.mem.heap.length) := by
  refine ⟨_, run_fresh sz cs hv, ?_, ?_, ?_, ?_⟩
  · by_cases hg : numGet cs = 0 <;> simp [clientAfter, hg, fresh]
  · by_cases hg : numGet cs = 0 <;> simp [clientAfter, hg, fresh]
  · by_cases hg : numGet cs = 0 <;> simp [clientAfter, hg, fresh, GetInstance]
  · intro c0 c2 cs2 a ha hrun
    exact run_keeps_instance sz cs2 c0 c2 a hrun ha

/-- Witness of C8: a program with three GetInstance calls and two AddOne calls. -/
theorem at_most_one_counter_witness :
    validFrom 0 [Call.getInstance, Call.addOne 0, Call.getInstance, Call.getInstance,
        Call.addOne 2] = true ∧
    ∃ c, run IntSize.bits64 (Client.start fresh)
        [Call.getInstance, Call.addOne 0, Call.getInstance, Call.getInstance, Call.addOne 2]
          = some c ∧
      c.mem.heap.length = 1 ∧ c.mem.instanceVar ≠ none := by
  obtain ⟨c, h1, h2, h3, _, _⟩ := at_most_one_counter IntSize.bits64
    [Call.getInstance, Call.addOne 0, Call.getInstance, Call.getInstance, Call.addOne 2]
    (by decide)
  refine ⟨by decide, c, h1, ?_, ?_⟩
  · rw [h2]; decide
  · intro hn
    have := h3.mp hn
    revert this
    decide

/-- C9: GetInstance always succeeds. On every memory, whether or not a Counter exists, it returns
a non-nil reference, the package variable afterwards holds that same reference, and on a
well-formed memory the memory afterwards is well formed and the reference addresses an allocated
Counter. -/
theorem getInstance_always_succeeds (m : Memory) :
    ∃ a : Nat, (GetInstance m).1 = some a ∧ (GetInstance m).2.instanceVar = some a ∧
      (m.WF → (GetInstance m).2.WF ∧ ∃ obj, (GetInstance m).2.heap[a]? = some obj) := by
  cases hi : m.instanceVar with
  | none =>
    rw [GetInstance_of_nil m hi]
    refine ⟨m.heap.length, rfl, rfl, fun _ => ⟨?_, { count := 100 }, by simp⟩⟩
    intro b hb
    simp only [Option.some.injEq] at hb
    subst hb
    simp
  | some a =>
    rw [GetInstance_of_some m a hi]
    exact ⟨a, rfl, hi, fun hwf => ⟨hwf, _, List.getElem?_eq_getElem (hwf a hi)⟩⟩

/-- Witness of C9: the fresh memory, which is well formed. -/
theorem getInstance_always_succeeds_witness :
    fresh.WF ∧ ∃ a : Nat, (GetInstance fresh).1 = some a ∧
      (GetInstance fresh).2.instanceVar = some a ∧ (GetInstance fresh).2.WF := by
  obtain ⟨a, h1, h2, h3⟩ := getInstance_always_succeeds fresh
  exact ⟨by decide, a, h1, h2, (h3 (by decide)).1⟩

/-- C10: in every client state reached from the fresh memory, every reference the client holds
from GetInstance is non-nil and AddOne on it returns a value without panic; the same holds for
the reference a further GetInstance call returns; and every well-formed continuation of the
program runs to its end without panic. -/
theorem addOne_never_panics (sz : IntSize) (cs : List Call) (c : Client)
    (h : run sz (Client.start fresh) cs = some c) :
    (∀ r ∈ c.refs, r ≠ none ∧ ∃ (v : Int) (m1 : Memory), AddOne sz r c.mem = some (v, m1)) ∧
    ((GetInstance c.mem).1 ≠ none ∧
      ∃ (v : Int) (m1 : Memory),
        AddOne sz (GetInstance c.mem).1 (GetInstance c.mem).2 = some (v, m1)) ∧
    (∀ cs2 : List Call, validFrom c.refs.length cs2 = true → ∃ c2, run sz c cs2 = some c2) := by
  have hc := run_fresh_eq sz cs c h
  have hwf : c.mem.WF := reachable_WF sz c.mem ⟨cs, c, h, rfl⟩
  refine ⟨?_, ?_, ?_⟩
  · intro r hr
    rw [hc] at hr
    have hr0 : r = some 0 := by
      simp only [clientAfter] at hr
      exact (List.mem_replicate.mp hr).2
    have hg : 0 < numGet cs := by
      simp only [clientAfter] at hr
      exact Nat.pos_of_ne_zero (List.mem_replicate.mp hr).1
    subst hr0
    refine ⟨by simp, ?_⟩
    rw [hc, clientAfter_mem_pos sz _ _ hg]
    exact ⟨_, _, AddOne_of_get sz _ 0 _ rfl⟩
  · obtain ⟨a, obj, _, h1, _, hget, _, _⟩ := getInstance_WF c.mem hwf
    rw [h1]
    exact ⟨by simp, _, _, AddOne_of_get sz _ a obj hget⟩
  · intro cs2 hv
    have hinv : numGet cs = 0 → numAddOne cs = 0 := by
      intro h0
      by_contra hne
      have := validFrom_pos_numGet cs 0 (run_fresh_valid sz cs c h) (Nat.pos_of_ne_zero hne)
      omega
    have hlen : c.refs.length = numGet cs := by
      rw [hc]; simp [clientAfter]
    rw [hlen] at hv
    rw [hc]
    exact ⟨_, run_clientAfter sz cs2 _ _ hinv hv⟩

/-- Witness of C10: the client state after GetInstance, AddOne, GetInstance on a 64-bit
platform. -/
theorem addOne_never_panics_witness :
    run IntSize.bits64 (Client.start fresh) [Call.getInstance, Call.addOne 0, Call.getInstance]
      = some { mem := { heap := [{ count := 101 }], instanceVar := some 0 },
               refs := [some 0, some 0], outs := [101] } ∧
    ∃ (v : Int) (m1 : Memory),
      AddOne IntSize.bits64 (some 0) { heap := [{ count := 101 }], instanceVar := some 0 }
        = some (v, m1) := by
  have h : run IntSize.bits64 (Client.start fresh)
      [Call.getInstance, Call.addOne 0, Call.getInstance]
      = some { mem := { heap := [{ count := 101 }], instanceVar := some 0 },
               refs := [some 0, some 0], outs := [101] } := by decide
  exact ⟨h, ((addOne_never_panics IntSize.bits64 _ _ h).1 (some 0) (by simp)).2⟩

end GoSingleton
